import Mathlib

/-!
Verification of the Assembly Calculus brain simulator.

The definitions below are a shallow embedding of the core of the repository:

* `src/brain/components.py`      — areas, stimuli, connections (`Area`,
  `Stimulus`, `BrainPart`, `Connection`);
* `src/brain/connectome/connectome.py` — the projection engine
  (`Connectome`, `prevWinnerInputs`, `projectInto`, `updateConnectomes`,
  `updateWinners`, `project`);
* `src/brain/brain.py`           — the active edge set dynamics of `Brain`
  (`BrainAC`, `enable1`, `addArea`, `nextRoundActive`);
* `src/assemblies/assembly_fun.py` — assembly identity and the
  `associate` operation (`identKey`, `mkAssembly`, `associateTrace`);
* `src/utils/blueprints/recording.py` — replay keyword-argument merging
  (`effectiveKwargs`, `playEntry`).

Synaptic weights (single precision floats in the source) are modelled as
rationals; the per-neuron index arithmetic is over `Nat`.  The calls into
`numpy.argpartition` are modelled by their documented contract
(`argpartitionSpec`): the engine is parameterised over any selector whose
output satisfies that contract, since the library does not specify which
of the tied indices it returns.
-/

namespace AssemblyCalc

/-- An area of the brain: identity (the uuid assigned by
`UniquelyIdentifiable`, modelled as a natural number), neuron count `n`,
winner quota `k` and plasticity coefficient `beta`
(`src/brain/components.py`, class `Area`). -/
structure Area where
  aid : Nat
  n : Nat
  k : Nat
  beta : ℚ
  deriving DecidableEq, Repr

/-- A stimulus: identity, neuron count and plasticity coefficient
(`src/brain/components.py`, class `Stimulus`). -/
structure Stimulus where
  sid : Nat
  n : Nat
  beta : ℚ
  deriving DecidableEq, Repr

/-- A brain part is either an area or a stimulus
(`src/brain/components.py`, `BrainPart = Union[Area, Stimulus, OutputArea]`;
`OutputArea` adds nothing over `Area` for the properties considered here). -/
inductive BrainPart where
  | area (a : Area)
  | stim (s : Stimulus)
  deriving DecidableEq, Repr

/-- Neuron count of a brain part. -/
def BrainPart.n : BrainPart → Nat
  | .area a => a.n
  | .stim s => s.n

/-- Plasticity coefficient carried by a brain part. -/
def BrainPart.betaOf : BrainPart → ℚ
  | .area a => a.beta
  | .stim s => s.beta

/-- `isinstance(part, Area)`. -/
def BrainPart.isArea : BrainPart → Bool
  | .area _ => true
  | .stim _ => false

/-- `isinstance(part, Stimulus)`. -/
def BrainPart.isStim : BrainPart → Bool
  | .area _ => false
  | .stim _ => true

/-- A directed connection with its synapse matrix
(`src/brain/components.py`, class `Connection`).  The matrix is modelled
as a total function on indices. -/
structure Connection where
  source : BrainPart
  dest : BrainPart
  synapses : Nat → Nat → ℚ

/-- The `beta` property of `Connection`
(`src/brain/components.py` lines 94-101): `dest.beta` when the source is
a stimulus, otherwise `source.beta`. -/
def Connection.beta (c : Connection) : ℚ :=
  match c.source with
  | .stim _ => c.dest.betaOf
  | .area a => a.beta

/-- Mutable state of `Connectome` (`src/brain/connectome/connectome.py`):
the winners map (`_winners`, a `defaultdict` with default `[]`), the
synapse matrices of all connections (lazily initialised in the source;
modelled as a total function), and the plasticity flag. -/
structure Connectome where
  winners : Area → List Nat
  syn : BrainPart → Area → Nat → Nat → ℚ
  plasticityDisabled : Bool

/-- The synapse matrix produced by `Connectome._initialize_connection`
(lines 61-70): entries are i.i.d. Bernoulli(p) draws, hence each entry is
`1` or `0` according to the draw; the draws themselves are abstracted as
a boolean function `rng`. -/
def initSynapses (rng : Nat → Nat → Bool) : Nat → Nat → ℚ :=
  fun i j => if rng i j then 1 else 0

/-- The effective plasticity coefficient computed inside
`Connectome.update_connectomes` (line 101):
`beta = source.beta if isinstance(source, Area) else area.beta`. -/
def updateBeta (source : BrainPart) (area : Area) : ℚ :=
  match source with
  | .area a => a.beta
  | .stim _ => area.beta

/-- The plasticity rule as the specification words it: `dest.beta` when
the source is a stimulus, otherwise `source.beta`. -/
def specEffectiveBeta (source : BrainPart) (dest : Area) : ℚ :=
  if source.isStim then dest.beta else source.betaOf

/-- The set of firing source neurons used by `update_connectomes`
(line 102): all neurons of a stimulus, the current winners of an area. -/
def sourceFiring (C : Connectome) : BrainPart → List Nat
  | .stim s => List.range s.n
  | .area a => C.winners a

/-- Contribution of one source area to the input of destination neuron
`j`: the sum over the source's current winners `w` of `W[s,d][w, j]`
(`_project_into`, the `src_areas` loop). -/
def areaContrib (C : Connectome) (d : Area) (a : Area) (j : Nat) : ℚ :=
  ((C.winners a).map (fun w => C.syn (.area a) d w j)).sum

/-- Contribution of one source stimulus to the input of destination
neuron `j`: the column sum of `W[s,d]`
(`_project_into`, the `src_stimuli` sum). -/
def stimContrib (C : Connectome) (d : Area) (s : Stimulus) (j : Nat) : ℚ :=
  ((List.range s.n).map (fun i => C.syn (.stim s) d i j)).sum

/-- Contribution of an arbitrary source part. -/
def srcContrib (C : Connectome) (d : Area) : BrainPart → Nat → ℚ
  | .area a => areaContrib C d a
  | .stim s => stimContrib C d s

/-- `prev_winner_inputs` of `Connectome._project_into` (lines 133-157):
the source list is split into areas and stimuli exactly as in the code,
and the two groups of contributions are added. -/
def prevWinnerInputs (C : Connectome) (d : Area) (sources : List BrainPart) :
    Nat → ℚ :=
  fun j =>
    ((sources.filter BrainPart.isArea).map (fun s => srcContrib C d s j)).sum
    + ((sources.filter BrainPart.isStim).map (fun s => srcContrib C d s j)).sum

/-- The documented contract of
`np.argpartition(input, n - k)[-k:]` for `0 < k ≤ n`: the result lists
`k` distinct indices of `{0,…,n-1}` and every value outside the selected
set is bounded by every value inside it.  Which tied indices appear, and
in which order, is left unspecified by numpy, so this is a predicate over
possible results rather than a function. -/
def argpartitionSpec (input : Nat → ℚ) (n k : Nat) (res : List Nat) : Prop :=
  res.Nodup ∧ res.length = k ∧ (∀ i ∈ res, i < n) ∧
    (∀ i ∈ res, ∀ j < n, j ∉ res → input j ≤ input i)

instance (input : Nat → ℚ) (n k : Nat) (res : List Nat) :
    Decidable (argpartitionSpec input n k res) := by
  unfold argpartitionSpec
  exact instDecidableAnd

/-- A selector: any function standing for the
`np.argpartition(·, n-k)[-k:]` call of `_project_into` (line 157).  The
engine is parameterised over it; theorems assume its output satisfies
`argpartitionSpec` at the inputs where it is used. -/
def Selector : Type :=
  (Nat → ℚ) → Nat → Nat → List Nat

/-- `Connectome._project_into` (lines 133-157), parameterised by the
selector standing for `np.argpartition`: compute the input of every
destination neuron from the current winners map and select `d.k`
winners. -/
def projectInto (sel : Selector) (C : Connectome) (d : Area)
    (sources : List BrainPart) : List Nat :=
  sel (prevWinnerInputs C d sources) d.n d.k

/-- One statement of the plasticity loop of `update_connectomes`
(line 121): for a fixed destination `d` and source `s`, multiply every
entry of `W[s,d]` with row in the firing set of `s` and column among the
new winners of `d` by `1 + beta`.  Only the synapse field changes. -/
def plasticityStep (C : Connectome) (d : Area) (nw : List Nat)
    (s : BrainPart) : Connectome :=
  { C with
    syn := fun s1 d1 i j =>
      if s1 = s ∧ d1 = d ∧ i ∈ sourceFiring C s ∧ j ∈ nw then
        C.syn s1 d1 i j * (1 + updateBeta s d)
      else C.syn s1 d1 i j }

/-- `Connectome.update_connectomes` (lines 90-121): when plasticity is
enabled, iterate over the destination areas and, for each, over its
source list, applying `plasticityStep`. -/
def updateConnectomes (C : Connectome) (nw : Area → List Nat)
    (tgts : List Area) (srcs : Area → List BrainPart) : Connectome :=
  if C.plasticityDisabled then C
  else
    tgts.foldl
      (fun Cd d => (srcs d).foldl (fun Cs s => plasticityStep Cs d (nw d) s) Cd)
      C

/-- `Connectome.update_winners` (lines 123-131): overwrite the winners
of every targeted area with its new winners. -/
def updateWinners (C : Connectome) (nw : Area → List Nat)
    (tgts : List Area) : Connectome :=
  { C with winners := fun a => if a ∈ tgts then nw a else C.winners a }

/-- The active edge set handed to `Connectome.project`, as an ordered
association list `source part → list of destination areas` (the
insertion-ordered python dict `connections`). -/
def EdgeMap : Type :=
  List (BrainPart × List Area)

/-- `sources_mapping[d]` as built by the loop at the top of
`Connectome.project` (lines 162-186): every source part `p`, once for
each occurrence of `d` in `p`'s destination list, in iteration order. -/
def sourcesFor (conns : EdgeMap) (d : Area) : List BrainPart :=
  conns.flatMap (fun pc => ((pc.2.filter (fun a => a = d)).map (fun _ => pc.1)))

/-- `to_update = sources_mapping.keys()`: the distinct destination areas
of the edge map. -/
def targets (conns : EdgeMap) : List Area :=
  (conns.flatMap Prod.snd).dedup

/-- `Connectome.project` (lines 162-186): build the destination→sources
mapping, compute each destination's new winners from the pre-round state,
then `update_connectomes`, then `update_winners` — in that order, as in
the source. -/
def project (sel : Selector) (conns : EdgeMap) (C : Connectome) : Connectome :=
  let nw : Area → List Nat := fun d => projectInto sel C d (sourcesFor conns d)
  updateWinners
    (updateConnectomes C nw (targets conns) (sourcesFor conns))
    nw (targets conns)

/-- The round as the specification's §5 orders it: new winners are
committed for all destinations *before* plasticity fires.  Written only
for comparison with `project`; it is not what the source does. -/
def projectSpecOrder (sel : Selector) (conns : EdgeMap) (C : Connectome) :
    Connectome :=
  let nw : Area → List Nat := fun d => projectInto sel C d (sourcesFor conns d)
  updateConnectomes
    (updateWinners C nw (targets conns))
    nw (targets conns) (sourcesFor conns)

/-- The ranking relation the specification describes for winner
selection: `i` comes before `j` when its input value is larger, or when
the values tie and `i` is the lower index.  (Spec side; used to state the
lower-index tie-breaking rule.) -/
def rankRel (input : Nat → ℚ) (i j : Nat) : Prop :=
  input j < input i ∨ (input i = input j ∧ i ≤ j)

instance rankRelDec (input : Nat → ℚ) : DecidableRel (rankRel input) :=
  fun _ _ => inferInstanceAs (Decidable (_ ∨ _))

/-- Winner selection as the specification words it: the `k` indices with
the largest input values, ties broken in favour of the lower index.
(Spec side, for comparison with the `argpartition`-based code.) -/
def specTopK (input : Nat → ℚ) (n k : Nat) : List Nat :=
  (List.insertionSort (rankRel input) (List.range n)).take k

/-- `specTopK` read as a `Selector`, used to instantiate the engine at
concrete inputs. -/
def specSelector : Selector :=
  fun input n k => specTopK input n k

instance rankRelTotal (input : Nat → ℚ) : IsTotal Nat (rankRel input) :=
  ⟨by
    intro i j
    rcases lt_trichotomy (input i) (input j) with h | h | h
    · exact Or.inr (Or.inl h)
    · rcases le_total i j with hij | hij
      · exact Or.inl (Or.inr ⟨h, hij⟩)
      · exact Or.inr (Or.inr ⟨h.symm, hij⟩)
    · exact Or.inl (Or.inl h)⟩

instance rankRelTrans (input : Nat → ℚ) : IsTrans Nat (rankRel input) :=
  ⟨by
    intro a b c hab hbc
    rcases hab with h1 | ⟨h1, h1a⟩ <;> rcases hbc with h2 | ⟨h2, h2a⟩
    · exact Or.inl (h2.trans h1)
    · exact Or.inl (h2 ▸ h1)
    · exact Or.inl (by rw [h1]; exact h2)
    · exact Or.inr ⟨h1.trans h2, h1a.trans h2a⟩⟩

/-- A selector fixture answering `[0]`, used by witnesses. -/
def selConst0 : Selector :=
  fun _ _ _ => [0]

/-- A selector fixture answering `[1]`, used by witnesses. -/
def selConst1 : Selector :=
  fun _ _ _ => [1]

/-- The active edge set of a `Brain` (`src/brain/brain.py`):
`active_connectome` is a `defaultdict(set)`, modelled by its key list
(insertion order of the keys the dict has materialised) together with the
per-key destination sets (empty off the key list). -/
structure BrainAC where
  keys : List BrainPart
  val : BrainPart → Finset BrainPart

/-- `Brain.enable(source, dest)` with an explicit destination
(lines 78-90): `self.active_connectome[source].add(dest)`.  Reading the
`defaultdict` at a missing key materialises the key. -/
def enable1 (b : BrainAC) (s d : BrainPart) : BrainAC :=
  { keys := if s ∈ b.keys then b.keys else b.keys ++ [s],
    val := fun x => if x = s then insert d (b.val x) else b.val x }

/-- The effect of `Brain.add_area` (lines 69-72) on the active edge set:
`self.enable(area, area)` (the recipe append and the connectome update do
not touch `active_connectome`). -/
def addArea (b : BrainAC) (a : Area) : BrainAC :=
  enable1 b (.area a) (.area a)

/-- The active edge set of a brain freshly constructed from a recipe
(`Brain.__init__`, lines 33-46): starting from an empty map,
`add_area` is called for every area of the recipe (stimuli are added
without enabling anything). -/
def initBrainActive (areas : List Area) : BrainAC :=
  areas.foldl addArea ⟨[], fun _ => ∅⟩

/-- All destinations a subconnectome argument lists for source `s`
(python dict keys are unique, but the model tolerates repetitions by
collecting all of them). -/
def subDests (sub : List (BrainPart × List BrainPart)) (s : BrainPart) :
    Finset BrainPart :=
  ((sub.filter (fun e => e.1 = s)).flatMap Prod.snd).toFinset

/-- The effect of `Brain.next_round(subconnectome, replace, iterations)`
(lines 53-67) on the brain's own `active_connectome`.

* `replace = true`, or `subconnectome` absent: the round uses
  `subconnectome or self.active_connectome` directly and never writes to
  it, so the active edge set is unchanged.
* otherwise the code takes `self.active_connectome.copy()` — a *shallow*
  dict copy, which shares the per-source `set` objects with the original
  for every source the original has materialised — and then runs
  `_active_connectome[source].add(dest)` for every edge of the
  subconnectome.  For a source already among the original's keys this
  mutates the shared set, so the addition is visible in the brain's own
  active edge set after the call; for a fresh source the `defaultdict`
  factory makes a new set that lives only in the copy. -/
def nextRoundActive (b : BrainAC)
    (sub : Option (List (BrainPart × List BrainPart))) (replace : Bool) :
    BrainAC :=
  match sub, replace with
  | none, _ => b
  | some _, true => b
  | some l, false =>
    { keys := b.keys,
      val := fun s => if s ∈ b.keys then b.val s ∪ subDests l s else b.val s }

/-- The identity key computed by `Assembly.__init__`
(`src/assemblies/assembly_fun.py` lines 100-112):
`hash((area, *sorted(parents, key=hash)))`, i.e. the area's identity
together with the parents' identities in sorted order.  The hash is
modelled as injective (the identities are uuids), so the key is the pair
itself.  `UniquelyIdentifiable` (`src/brain/components.py` lines 14-30)
maps equal keys to one shared uid, so the key *is* the assembly's
identity. -/
def identKey (area : Area) (parents : List Nat) : Nat × List Nat :=
  (area.aid, List.insertionSort (fun i j : Nat => i ≤ j) parents)

/-- An assembly node as constructed by `Assembly.__init__` outside any
brain scope: the parents (by identity hash, in the order given — the
source stores `tuple(parents)` unsorted), the destination area, and the
deduplicated identity. -/
structure AsmNode where
  parents : List Nat
  area : Area
  uid : Nat × List Nat
  deriving DecidableEq, Repr

/-- `Assembly(parents, area)`: keeps the given parent order and computes
the identity key. -/
def mkAssembly (parents : List Nat) (area : Area) : AsmNode :=
  { parents := parents, area := area, uid := identKey area parents }

/-- `Assembly._merge(assemblies, area)` invoked with `brain = None`
(lines 200 ff.): no brain work happens, only the new node is built with
the given assemblies (given by their identity hashes) as parents. -/
def mergeNoBrain (parentHashes : List Nat) (area : Area) : AsmNode :=
  mkAssembly parentHashes area

/-- A high-level operation on assemblies, for tracing what
`Assembly._associate` invokes: `proj s a` is `x.project(area)` with
`x`'s identity `s` and target area identity `a`; `merge ps a` is
`Assembly._merge` on parents `ps` into area `a`. -/
inductive AsmOp where
  | proj (source : Nat × List Nat) (targetArea : Nat)
  | merge (parents : List (Nat × List Nat)) (targetArea : Nat)
  deriving DecidableEq, Repr

/-- The calls `Assembly._associate(a, b)` makes
(`src/assemblies/assembly_fun.py` lines 238-256): for each `(x, y)` in
`itertools.product(a, b)`, first `x.project(y.area)`, then
`y.project(x.area)`.  The function itself returns `None`. -/
def associateTrace (a b : List AsmNode) : List AsmOp :=
  ((a.flatMap (fun x => b.map (fun y => (x, y)))).flatMap
    (fun xy => [AsmOp.proj xy.1.uid xy.2.area.aid,
                AsmOp.proj xy.2.uid xy.1.area.aid]))

/-- The calls the specification claims `associate(A, B)` makes: for each
`(x, y) ∈ A × B`, `merge((x, y), x.area)`.  (Spec side, for comparison
with `associateTrace`.) -/
def specAssociateTrace (a b : List AsmNode) : List AsmOp :=
  (a.flatMap (fun x => b.map (fun y => (x, y)))).map
    (fun xy => AsmOp.merge [xy.1.uid, xy.2.uid] xy.1.area.aid)

/-- Keyword-argument maps, as finitely supported functions from names to
values (names and values both abstracted as naturals). -/
def Kwargs : Type :=
  Nat → Option Nat

/-- The `effective_kwargs` computed by `Recording.play`
(`src/utils/blueprints/recording.py` lines 19-24):
`{**stored, **{k: v for k, v in replay.items() if k not in stored}}` —
the stored entry wins whenever a key is present in both maps, and the
replay-time entries only fill keys absent from the stored map. -/
def effectiveKwargs (stored replay : Kwargs) : Kwargs :=
  fun k =>
    match stored k with
    | some v => some v
    | none => replay k

/-- A recorded entry (`Recording.Entry`): function identifier, stored
positional arguments, stored keyword arguments. -/
structure RecEntry where
  function : Nat
  posArgs : List Nat
  kwArgs : Kwargs

/-- The invocation `Recording.play` performs for one recorded entry,
given the replay-time keyword arguments: the stored function, the stored
positional arguments unchanged, and the merged keyword arguments. -/
def playEntry (e : RecEntry) (replay : Kwargs) : Nat × List Nat × Kwargs :=
  (e.function, e.posArgs, effectiveKwargs e.kwArgs replay)

/-- How many times one round of `project` multiplies entry `(i, j)` of
the matrix `W[s, d]` by `1 + beta`: zero when plasticity is disabled;
otherwise one for each occurrence of `s` in the source list of each
targeted area equal to `d`, provided `i` fires in `s` (per the pre-round
winners) and `j` is among `d`'s new winners. -/
def touchCount (sel : Selector) (conns : EdgeMap) (C : Connectome)
    (s : BrainPart) (d : Area) (i j : Nat) : Nat :=
  if C.plasticityDisabled then 0
  else
    ((targets conns).map (fun d1 =>
      if d = d1 ∧ i ∈ sourceFiring C s ∧
          j ∈ projectInto sel C d1 (sourcesFor conns d1) then
        (sourcesFor conns d1).count s
      else 0)).sum

/-! ### Concrete fixtures used by witnesses and counterexamples -/

/-- A stimulus with one neuron. -/
def S0 : Stimulus :=
  { sid := 100, n := 1, beta := 1 }

/-- An area with two neurons, winner quota one and plasticity one. -/
def A0 : Area :=
  { aid := 0, n := 2, k := 1, beta := 1 }

/-- A second area. -/
def B0 : Area :=
  { aid := 1, n := 2, k := 1, beta := 1 }

/-- A connectome whose matrices are all-ones and whose winners map is
empty. -/
def C0 : Connectome :=
  { winners := fun _ => [], syn := fun _ _ _ _ => 1, plasticityDisabled := false }

/-- A connectome for the self-loop round `A0 → A0`: the current winners
of `A0` are `[0]` and the synapse from neuron `0` to neuron `1` is the
strongest. -/
def C3st : Connectome :=
  { winners := fun a => if a = A0 then [0] else [],
    syn := fun _ _ i j => if i = 0 ∧ j = 1 then 2 else 1,
    plasticityDisabled := false }

/-- The self-loop edge map `{A0: [A0]}`. -/
def connsLoop : EdgeMap :=
  [(.area A0, [A0])]

/-- The edge map `{S0: [A0]}`. -/
def connsStim : EdgeMap :=
  [(.stim S0, [A0])]

/-- A one-area brain as produced by `Brain.add_area(A0)` on an empty
brain. -/
def bLeak : BrainAC :=
  addArea { keys := [], val := fun _ => ∅ } A0

/-- An assembly with a single parent of identity hash `10` living in
`A0`. -/
def xAsm : AsmNode :=
  mkAssembly [10] A0

/-- An assembly with a single parent of identity hash `20` living in
`B0`. -/
def yAsm : AsmNode :=
  mkAssembly [20] B0

/-- Stored keyword arguments binding key `0` to value `1`. -/
def storedKw : Kwargs :=
  fun k => if k = 0 then some 1 else none

/-- Replay keyword arguments binding key `0` to value `2`. -/
def replayKw : Kwargs :=
  fun k => if k = 0 then some 2 else none

/-- A recorded entry with stored keyword arguments `storedKw`. -/
def recEntry0 : RecEntry :=
  { function := 5, posArgs := [7], kwArgs := storedKw }

/-! ### Structural lemmas about the projection engine -/

theorem plasticityStep_winners (C : Connectome) (d : Area) (nw : List Nat)
    (s : BrainPart) : (plasticityStep C d nw s).winners = C.winners :=
  rfl

theorem sourceFiring_congr {C1 C2 : Connectome}
    (h : C1.winners = C2.winners) (p : BrainPart) :
    sourceFiring C1 p = sourceFiring C2 p := by
  cases p with
  | stim s => rfl
  | area a => simp [sourceFiring, h]

theorem innerFold_winners (d : Area) (nw : List Nat) (ss : List BrainPart)
    (C : Connectome) :
    ((ss.foldl (fun Cs s => plasticityStep Cs d nw s) C)).winners = C.winners := by
  induction ss generalizing C with
  | nil => rfl
  | cons s tl ih =>
    simp only [List.foldl_cons]
    rw [ih, plasticityStep_winners]

theorem outerFold_winners (nw : Area → List Nat) (srcs : Area → List BrainPart)
    (ts : List Area) (C : Connectome) :
    ((ts.foldl
        (fun Cd d => (srcs d).foldl (fun Cs s => plasticityStep Cs d (nw d) s) Cd)
        C)).winners = C.winners := by
  induction ts generalizing C with
  | nil => rfl
  | cons d tl ih =>
    simp only [List.foldl_cons]
    rw [ih, innerFold_winners]

theorem updateConnectomes_winners (C : Connectome) (nw : Area → List Nat)
    (tgts : List Area) (srcs : Area → List BrainPart) :
    (updateConnectomes C nw tgts srcs).winners = C.winners := by
  unfold updateConnectomes
  split
  · rfl
  · exact outerFold_winners nw srcs tgts C

theorem updateWinners_syn (C : Connectome) (nw : Area → List Nat)
    (tgts : List Area) : (updateWinners C nw tgts).syn = C.syn :=
  rfl

theorem project_winners (sel : Selector) (conns : EdgeMap) (C : Connectome)
    (d : Area) :
    (project sel conns C).winners d
      = if d ∈ targets conns then projectInto sel C d (sourcesFor conns d)
        else C.winners d := by
  unfold project updateWinners
  simp only
  rw [updateConnectomes_winners]

theorem project_syn (sel : Selector) (conns : EdgeMap) (C : Connectome) :
    (project sel conns C).syn
      = (updateConnectomes C
          (fun d => projectInto sel C d (sourcesFor conns d))
          (targets conns) (sourcesFor conns)).syn :=
  rfl

/-! ### C2 — the effective plasticity coefficient -/

/-- C2: every plasticity update of a round multiplies the touched entry
of `W[s, d]` by `1 + d.beta` when the source `s` is a stimulus and by
`1 + s.beta` when it is an area (`specEffectiveBeta`), and the `beta`
property of `Connection` reports the same rule. -/
theorem plasticity_multiplier (C : Connectome) (d : Area) (nw : List Nat)
    (s : BrainPart) (i j : Nat) (hi : i ∈ sourceFiring C s) (hj : j ∈ nw) :
    (plasticityStep C d nw s).syn s d i j
        = C.syn s d i j * (1 + specEffectiveBeta s d)
      ∧ ∀ syns, Connection.beta ⟨s, .area d, syns⟩ = specEffectiveBeta s d := by
  constructor
  · have hstep : (plasticityStep C d nw s).syn s d i j
        = C.syn s d i j * (1 + updateBeta s d) := by
      simp [plasticityStep, hi, hj]
    rw [hstep]
    cases s <;> rfl
  · intro syns
    cases s <;> rfl

theorem plasticity_multiplier_witness :
    (0 ∈ sourceFiring C0 (.stim S0) ∧ 0 ∈ ([0] : List Nat))
      ∧ (plasticityStep C0 A0 [0] (.stim S0)).syn (.stim S0) A0 0 0
          = C0.syn (.stim S0) A0 0 0 * (1 + specEffectiveBeta (.stim S0) A0) :=
  ⟨⟨by decide, by decide⟩,
    (plasticity_multiplier C0 A0 [0] (.stim S0) 0 0 (by decide) (by decide)).1⟩

/-! ### C9 — assembly identity -/

/-- C9: two assembly identities are equal exactly when the areas agree
and the parent identity multisets agree; in particular merging `(x, y)`
and `(y, x)` into the same area outside a brain scope yields nodes with
equal identities and the same set of parents. -/
theorem assembly_identity :
    (∀ (a1 a2 : Area) (p1 p2 : List Nat),
        identKey a1 p1 = identKey a2 p2
          ↔ a1.aid = a2.aid ∧ (p1 : Multiset Nat) = (p2 : Multiset Nat))
      ∧ ∀ (xh yh : Nat) (D : Area),
          (mergeNoBrain [xh, yh] D).uid = (mergeNoBrain [yh, xh] D).uid
            ∧ (mergeNoBrain [xh, yh] D).parents.toFinset
                = (mergeNoBrain [yh, xh] D).parents.toFinset := by
  have key : ∀ (a1 a2 : Area) (p1 p2 : List Nat),
      identKey a1 p1 = identKey a2 p2
        ↔ a1.aid = a2.aid ∧ (p1 : Multiset Nat) = (p2 : Multiset Nat) := by
    intro a1 a2 p1 p2
    unfold identKey
    rw [Prod.mk.injEq]
    constructor
    · rintro ⟨h1, h2⟩
      refine ⟨h1, ?_⟩
      have e1 : (p1 : Multiset Nat)
          = (List.insertionSort (fun i j : Nat => i ≤ j) p1 : List Nat) :=
        (Multiset.coe_eq_coe.mpr (List.perm_insertionSort _ p1)).symm
      have e2 : (p2 : Multiset Nat)
          = (List.insertionSort (fun i j : Nat => i ≤ j) p2 : List Nat) :=
        (Multiset.coe_eq_coe.mpr (List.perm_insertionSort _ p2)).symm
      rw [e1, e2, h2]
    · rintro ⟨h1, h2⟩
      refine ⟨h1, ?_⟩
      have hp : p1.Perm p2 := Multiset.coe_eq_coe.mp h2
      exact List.eq_of_perm_of_sorted
        (((List.perm_insertionSort _ p1).trans hp).trans
          (List.perm_insertionSort _ p2).symm)
        (List.sorted_insertionSort _ p1) (List.sorted_insertionSort _ p2)
  refine ⟨key, ?_⟩
  intro xh yh D
  constructor
  · exact (key D D [xh, yh] [yh, xh]).mpr
      ⟨rfl, Multiset.coe_eq_coe.mpr (List.Perm.swap yh xh [])⟩
  · simp [mergeNoBrain, mkAssembly, Finset.pair_comm]

theorem assembly_identity_witness :
    A0.aid = A0.aid ∧ (([1, 2] : List Nat) : Multiset Nat) = (([2, 1] : List Nat) : Multiset Nat)
      ∧ identKey A0 [1, 2] = identKey A0 [2, 1] :=
  ⟨rfl, by decide,
    (assembly_identity.1 A0 A0 [1, 2] [2, 1]).mpr ⟨rfl, by decide⟩⟩

/-! ### C6 — what associate invokes -/

/-- C6 (counterexample): on one-element tuples, `_associate` performs two
cross projections and no merge, while the claim says it performs the
merge `merge((x, y), x.area)`. -/
theorem associate_counterexample :
    associateTrace [xAsm] [yAsm]
        = [.proj xAsm.uid B0.aid, .proj yAsm.uid A0.aid]
      ∧ specAssociateTrace [xAsm] [yAsm] = [.merge [xAsm.uid, yAsm.uid] A0.aid]
      ∧ associateTrace [xAsm] [yAsm] ≠ specAssociateTrace [xAsm] [yAsm] := by
  refine ⟨by decide, by decide, by decide⟩

/-- C6 (amended): `_associate(a, b)` never calls merge; its calls are
exactly the projections `x.project(y.area)` and `y.project(x.area)` for
the pairs `(x, y) ∈ a × b`, and it returns no value (the trace is its
whole effect). -/
theorem associate_calls (a b : List AsmNode) :
    (∀ ps ar, AsmOp.merge ps ar ∉ associateTrace a b)
      ∧ ∀ op, op ∈ associateTrace a b
          ↔ ∃ x ∈ a, ∃ y ∈ b,
              op = .proj x.uid y.area.aid ∨ op = .proj y.uid x.area.aid := by
  constructor
  · intro ps ar h
    simp only [associateTrace, List.mem_flatMap, List.mem_map] at h
    obtain ⟨xy, _, h⟩ := h
    simp at h
  · intro op
    constructor
    · intro h
      simp only [associateTrace, List.mem_flatMap, List.mem_map] at h
      obtain ⟨xy, ⟨x, hx, y, hy, hxy⟩, hop⟩ := h
      subst hxy
      simp only [List.mem_cons, List.mem_singleton] at hop
      exact ⟨x, hx, y, hy, by tauto⟩
    · rintro ⟨x, hx, y, hy, hop⟩
      simp only [associateTrace, List.mem_flatMap, List.mem_map]
      refine ⟨(x, y), ⟨x, hx, y, hy, rfl⟩, ?_⟩
      simp only [List.mem_cons, List.mem_singleton]
      tauto

theorem associate_calls_witness :
    AsmOp.merge [xAsm.uid, yAsm.uid] A0.aid ∉ associateTrace [xAsm] [yAsm] :=
  (associate_calls [xAsm] [yAsm]).1 [xAsm.uid, yAsm.uid] A0.aid

/-! ### C7 — replay keyword arguments -/

/-- C7 (counterexample): a keyword supplied both at record time and at
replay time is replayed with the *stored* value, not the replay-time
one. -/
theorem play_override_counterexample :
    (playEntry recEntry0 replayKw).2.2 0 = some 1
      ∧ replayKw 0 = some 2
      ∧ (playEntry recEntry0 replayKw).2.2 0 ≠ replayKw 0 := by
  refine ⟨by decide, by decide, by decide⟩

/-- C7 (amended): replay re-invokes each entry with its stored
positional arguments; on keys present in the stored keyword arguments
the stored value wins, and replay-time keyword arguments only fill keys
the stored map does not bind. -/
theorem play_kwargs (e : RecEntry) (replay : Kwargs) :
    (playEntry e replay).1 = e.function
      ∧ (playEntry e replay).2.1 = e.posArgs
      ∧ (∀ k v, e.kwArgs k = some v → (playEntry e replay).2.2 k = some v)
      ∧ ∀ k, e.kwArgs k = none → (playEntry e replay).2.2 k = replay k := by
  refine ⟨rfl, rfl, ?_, ?_⟩
  · intro k v h
    simp [playEntry, effectiveKwargs, h]
  · intro k h
    simp [playEntry, effectiveKwargs, h]

theorem play_kwargs_witness :
    recEntry0.kwArgs 1 = none
      ∧ (playEntry recEntry0 replayKw).2.2 1 = replayKw 1 :=
  ⟨by decide, (play_kwargs recEntry0 replayKw).2.2.2 1 (by decide)⟩

/-! ### C10 — self edges of a fresh brain -/

theorem addArea_val_mono (b : BrainAC) (a' : Area) (x s : BrainPart)
    (h : x ∈ b.val s) : x ∈ (addArea b a').val s := by
  simp only [addArea, enable1]
  split
  · next heq => exact heq ▸ Finset.mem_insert_of_mem h
  · exact h

theorem foldl_addArea_mono (l : List Area) (b : BrainAC) (x s : BrainPart)
    (h : x ∈ b.val s) : x ∈ (l.foldl addArea b).val s := by
  induction l generalizing b with
  | nil => exact h
  | cons hd tl ih =>
    simp only [List.foldl_cons]
    exact ih _ (addArea_val_mono b hd x s h)

theorem addArea_self_mem (b : BrainAC) (a : Area) :
    BrainPart.area a ∈ (addArea b a).val (.area a) := by
  simp [addArea, enable1]

theorem foldl_addArea_self_mem (l : List Area) (b : BrainAC) (a : Area)
    (h : a ∈ l) : BrainPart.area a ∈ (l.foldl addArea b).val (.area a) := by
  induction l generalizing b with
  | nil => cases h
  | cons hd tl ih =>
    simp only [List.foldl_cons]
    rcases List.mem_cons.mp h with h1 | h1
    · subst h1
      exact foldl_addArea_mono tl _ _ _ (addArea_self_mem b a)
    · exact ih _ h1

/-- C10: `Brain.add_area(a)` puts the self edge `(a, a)` into the active
edge set, and hence a brain freshly constructed from a recipe has the
self edge of every recipe area. -/
theorem self_edge_active (b : BrainAC) (a : Area) (areas : List Area)
    (ha : a ∈ areas) :
    BrainPart.area a ∈ (addArea b a).val (.area a)
      ∧ BrainPart.area a ∈ (initBrainActive areas).val (.area a) :=
  ⟨addArea_self_mem b a, foldl_addArea_self_mem areas _ a ha⟩

theorem self_edge_active_witness :
    A0 ∈ [A0]
      ∧ BrainPart.area A0 ∈ (addArea bLeak A0).val (.area A0)
      ∧ BrainPart.area A0 ∈ (initBrainActive [A0]).val (.area A0) :=
  ⟨by decide, (self_edge_active bLeak A0 [A0] (by decide)).1,
    (self_edge_active bLeak A0 [A0] (by decide)).2⟩

/-! ### C8 — next_round leaks into the active edge set -/

/-- C8 (failing input): on a brain holding only area `A0` (so the self
edge `(A0, A0)` is active), `next_round({A0: [B0]}, replace=False)`
leaves the edge `(A0, B0)` in the brain's own active edge set after the
call, because the shallow `dict.copy()` shares the per-source sets. -/
theorem next_round_leak :
    bLeak.val (.area A0) = {.area A0}
      ∧ (nextRoundActive bLeak (some [(.area A0, [.area B0])]) false).val
          (.area A0) = {.area A0, .area B0}
      ∧ (nextRoundActive bLeak (some [(.area A0, [.area B0])]) false).val
          (.area A0) ≠ bLeak.val (.area A0) := by
  refine ⟨by decide, by decide, by decide⟩

/-! ### Evaluation lemmas for the concrete fixtures -/

theorem stim_input_const (j : Nat) :
    prevWinnerInputs C0 A0 (sourcesFor connsStim A0) j = 1 := by
  have hsrc : sourcesFor connsStim A0 = [.stim S0] := by decide
  rw [hsrc]
  simp [prevWinnerInputs, srcContrib, stimContrib, BrainPart.isArea,
    BrainPart.isStim, C0, S0]

theorem loop_input_zero :
    prevWinnerInputs C3st A0 [.area A0] 0 = 1 := by
  simp [prevWinnerInputs, srcContrib, areaContrib, BrainPart.isArea,
    BrainPart.isStim, C3st, A0]

theorem loop_input_one :
    prevWinnerInputs C3st A0 [.area A0] 1 = 2 := by
  simp [prevWinnerInputs, srcContrib, areaContrib, BrainPart.isArea,
    BrainPart.isStim, C3st, A0]

/-! ### C1 — committed winners are k distinct in-range indices -/

/-- C1: after a round that targeted area `d` (with `0 < d.k ≤ d.n`), the
winners committed for `d` are exactly `d.k` distinct indices, each below
`d.n` — for any selector output satisfying the `argpartition` contract
at the round's input vector. -/
theorem winners_size_and_range (sel : Selector) (conns : EdgeMap)
    (C : Connectome) (d : Area) (_hk : 0 < d.k) (_hkn : d.k ≤ d.n)
    (hd : d ∈ targets conns)
    (hsel : argpartitionSpec (prevWinnerInputs C d (sourcesFor conns d)) d.n d.k
        (sel (prevWinnerInputs C d (sourcesFor conns d)) d.n d.k)) :
    ((project sel conns C).winners d).length = d.k
      ∧ ((project sel conns C).winners d).Nodup
      ∧ ∀ i ∈ (project sel conns C).winners d, i < d.n := by
  have hw : (project sel conns C).winners d
      = sel (prevWinnerInputs C d (sourcesFor conns d)) d.n d.k := by
    rw [project_winners, if_pos hd]
    rfl
  rw [hw]
  obtain ⟨h1, h2, h3, _⟩ := hsel
  exact ⟨h2, h1, h3⟩

theorem winners_size_and_range_witness :
    (0 < A0.k ∧ A0.k ≤ A0.n ∧ A0 ∈ targets connsStim
        ∧ argpartitionSpec (prevWinnerInputs C0 A0 (sourcesFor connsStim A0))
            A0.n A0.k
            (selConst0 (prevWinnerInputs C0 A0 (sourcesFor connsStim A0)) A0.n A0.k))
      ∧ ((project selConst0 connsStim C0).winners A0).length = A0.k := by
  have hspec : argpartitionSpec (prevWinnerInputs C0 A0 (sourcesFor connsStim A0))
      A0.n A0.k
      (selConst0 (prevWinnerInputs C0 A0 (sourcesFor connsStim A0)) A0.n A0.k) := by
    refine ⟨by decide, by decide, by decide, ?_⟩
    intro i hi j hj hj2
    rw [stim_input_const i, stim_input_const j]
  exact ⟨⟨by decide, by decide, by decide, hspec⟩,
    (winners_size_and_range selConst0 connsStim C0 A0 (by decide) (by decide)
      (by decide) hspec).1⟩

/-! ### C5 — winner selection versus the argpartition contract -/

theorem specTopK_spec (input : Nat → ℚ) (n k : Nat) (hkn : k ≤ n) :
    argpartitionSpec input n k (specTopK input n k) := by
  have hperm : (List.insertionSort (rankRel input) (List.range n)).Perm
      (List.range n) := List.perm_insertionSort _ _
  have hlen : (List.insertionSort (rankRel input) (List.range n)).length = n := by
    rw [hperm.length_eq, List.length_range]
  have hnodup : (List.insertionSort (rankRel input) (List.range n)).Nodup :=
    hperm.nodup_iff.mpr (List.nodup_range n)
  have hsort : (List.insertionSort (rankRel input) (List.range n)).Sorted
      (rankRel input) := List.sorted_insertionSort _ _
  have hmemL : ∀ j < n, j ∈ List.insertionSort (rankRel input) (List.range n) := by
    intro j hj
    exact hperm.mem_iff.mpr (List.mem_range.mpr hj)
  refine ⟨?_, ?_, ?_, ?_⟩
  · exact (List.take_sublist k _).nodup hnodup
  · rw [specTopK, List.length_take, hlen, min_eq_left hkn]
  · intro i hi
    have : i ∈ List.insertionSort (rankRel input) (List.range n) :=
      List.mem_of_mem_take hi
    exact List.mem_range.mp (hperm.mem_iff.mp this)
  · intro i hi j hj hjn
    have hjL : j ∈ List.insertionSort (rankRel input) (List.range n) := hmemL j hj
    have hjdrop : j ∈ (List.insertionSort (rankRel input) (List.range n)).drop k := by
      rcases List.mem_append.mp
          ((List.take_append_drop k
            (List.insertionSort (rankRel input) (List.range n))) ▸ hjL) with h | h
      · exact absurd h hjn
      · exact h
    have hpw := hsort
    rw [← List.take_append_drop k (List.insertionSort (rankRel input) (List.range n))]
      at hpw
    have hrel := (List.pairwise_append.mp hpw).2.2 i hi j hjdrop
    rcases hrel with h | ⟨h, _⟩
    · exact h.le
    · exact h.ge

theorem argpartition_unique (input : Nat → ℚ) (n k : Nat) (r1 r2 : List Nat)
    (h1 : argpartitionSpec input n k r1) (h2 : argpartitionSpec input n k r2)
    (hinj : ∀ i < n, ∀ j < n, input i = input j → i = j) :
    r1.toFinset = r2.toFinset := by
  obtain ⟨nd1, l1, b1, p1⟩ := h1
  obtain ⟨nd2, l2, b2, p2⟩ := h2
  by_contra hne
  have hc1 : r1.toFinset.card = k := by rw [List.toFinset_card_of_nodup nd1, l1]
  have hc2 : r2.toFinset.card = k := by rw [List.toFinset_card_of_nodup nd2, l2]
  have hdiff1 : (r1.toFinset \ r2.toFinset).Nonempty := by
    rw [Finset.sdiff_nonempty]
    intro hsub
    exact hne (Finset.eq_of_subset_of_card_le hsub (by rw [hc1, hc2]))
  have hdiff2 : (r2.toFinset \ r1.toFinset).Nonempty := by
    rw [Finset.sdiff_nonempty]
    intro hsub
    exact hne (Finset.eq_of_subset_of_card_le hsub (by rw [hc1, hc2])).symm
  obtain ⟨s, hs⟩ := hdiff1
  obtain ⟨t, ht⟩ := hdiff2
  rw [Finset.mem_sdiff, List.mem_toFinset, List.mem_toFinset] at hs ht
  have hle1 : input t ≤ input s := p1 s hs.1 t (b2 t ht.1) ht.2
  have hle2 : input s ≤ input t := p2 t ht.1 s (b1 s hs.1) hs.2
  have hst : s = t := hinj s (b1 s hs.1) t (b2 t ht.1) (le_antisymm hle2 hle1)
  exact hs.2 (hst ▸ ht.1)

/-- C5 (amended): any selection the `argpartition` contract admits at the
round's input is, as a set, the `d.k` indices of largest input — it
agrees with the specification's lower-index-tie-break selection whenever
the input values are pairwise distinct.  Under ties only the set-level
top-k property holds; the tie order is not the specification's. -/
theorem selection_topk (sel : Selector) (C : Connectome) (d : Area)
    (sources : List BrainPart) (hkn : d.k ≤ d.n)
    (hres : argpartitionSpec (prevWinnerInputs C d sources) d.n d.k
        (projectInto sel C d sources))
    (hinj : ∀ i < d.n, ∀ j < d.n,
        prevWinnerInputs C d sources i = prevWinnerInputs C d sources j → i = j) :
    (projectInto sel C d sources).toFinset
      = (specTopK (prevWinnerInputs C d sources) d.n d.k).toFinset :=
  argpartition_unique (prevWinnerInputs C d sources) d.n d.k _ _ hres
    (specTopK_spec _ _ _ hkn) hinj

theorem selection_topk_witness :
    (A0.k ≤ A0.n
        ∧ argpartitionSpec (prevWinnerInputs C3st A0 [.area A0]) A0.n A0.k
            (projectInto selConst1 C3st A0 [.area A0]))
      ∧ (projectInto selConst1 C3st A0 [.area A0]).toFinset
          = (specTopK (prevWinnerInputs C3st A0 [.area A0]) A0.n A0.k).toFinset := by
  have hres : argpartitionSpec (prevWinnerInputs C3st A0 [.area A0]) A0.n A0.k
      (projectInto selConst1 C3st A0 [.area A0]) := by
    refine ⟨by decide, by decide, by decide, ?_⟩
    intro i hi j hj hj2
    have hi1 : i = 1 := by
      simpa [projectInto, selConst1] using hi
    have hj0 : j = 0 := by
      have : j < 2 := hj
      interval_cases j
      · rfl
      · exact absurd (by simp [projectInto, selConst1]) hj2
    rw [hi1, hj0, loop_input_zero, loop_input_one]
    norm_num
  have hinj : ∀ i < A0.n, ∀ j < A0.n,
      prevWinnerInputs C3st A0 [.area A0] i = prevWinnerInputs C3st A0 [.area A0] j
        → i = j := by
    intro i hi j hj h
    have hi2 : i < 2 := hi
    have hj2 : j < 2 := hj
    interval_cases i <;> interval_cases j
    · rfl
    · rw [loop_input_zero, loop_input_one] at h
      norm_num at h
    · rw [loop_input_zero, loop_input_one] at h
      norm_num at h
    · rfl
  exact ⟨⟨by decide, hres⟩,
    selection_topk selConst1 C3st A0 [.area A0] (by decide) hres hinj⟩

/-- C5 (counterexample): on a tied input vector (every neuron of `A0`
receives input `1` from stimulus `S0`), the `argpartition` contract — all
the code guarantees — admits the selection `[1]`, while the claimed
lower-index-first rule demands `{0}`; so the claimed deterministic
tie-breaking is not what the code computes. -/
theorem selection_tie_counterexample :
    argpartitionSpec (prevWinnerInputs C0 A0 (sourcesFor connsStim A0)) A0.n A0.k [1]
      ∧ specTopK (prevWinnerInputs C0 A0 (sourcesFor connsStim A0)) A0.n A0.k = [0]
      ∧ ([1] : List Nat).toFinset
          ≠ (specTopK (prevWinnerInputs C0 A0 (sourcesFor connsStim A0))
              A0.n A0.k).toFinset := by
  have hspec : specTopK (prevWinnerInputs C0 A0 (sourcesFor connsStim A0))
      A0.n A0.k = [0] := by
    have h2 : List.range A0.n = [0, 1] := by decide
    rw [specTopK, h2]
    have hr : rankRel (prevWinnerInputs C0 A0 (sourcesFor connsStim A0)) 0 1 := by
      rw [rankRel, stim_input_const 0, stim_input_const 1]
      exact Or.inr ⟨rfl, by norm_num⟩
    simp only [List.insertionSort, List.orderedInsert, if_pos hr]
    decide
  refine ⟨?_, hspec, ?_⟩
  · refine ⟨by decide, by decide, by decide, ?_⟩
    intro i hi j hj hj2
    rw [stim_input_const i, stim_input_const j]
  · rw [hspec]
    decide

/-! ### C4 — multiplicative, monotone weight evolution -/

theorem innerFold_syn (d1 : Area) (nw : List Nat) (ss : List BrainPart)
    (C : Connectome) (s : BrainPart) (d : Area) (i j : Nat) :
    ((ss.foldl (fun Cs x => plasticityStep Cs d1 nw x) C)).syn s d i j
      = C.syn s d i j * (1 + updateBeta s d)
          ^ (if d = d1 ∧ i ∈ sourceFiring C s ∧ j ∈ nw then ss.count s else 0) := by
  induction ss generalizing C with
  | nil => simp
  | cons x tl ih =>
    simp only [List.foldl_cons]
    rw [ih]
    have hsf : sourceFiring (plasticityStep C d1 nw x) s = sourceFiring C s :=
      sourceFiring_congr (plasticityStep_winners C d1 nw x) s
    rw [hsf]
    by_cases hc : d = d1 ∧ i ∈ sourceFiring C s ∧ j ∈ nw
    · rw [if_pos hc, if_pos hc]
      by_cases hx : s = x
      · subst hx
        obtain ⟨hd1, hi, hj⟩ := hc
        subst hd1
        have hstep : (plasticityStep C d nw s).syn s d i j
            = C.syn s d i j * (1 + updateBeta s d) := by
          simp [plasticityStep, hi, hj]
        rw [hstep, List.count_cons_self, pow_succ]
        ring
      · have hstep : (plasticityStep C d1 nw x).syn s d i j = C.syn s d i j := by
          simp only [plasticityStep]
          rw [if_neg]
          rintro ⟨h1, -, -, -⟩
          exact hx h1
        rw [hstep, List.count_cons_of_ne hx]
    · rw [if_neg hc, if_neg hc]
      have hstep : (plasticityStep C d1 nw x).syn s d i j = C.syn s d i j := by
        simp only [plasticityStep]
        rw [if_neg]
        rintro ⟨h1, h2, h3, h4⟩
        subst h1
        exact hc ⟨h2, h3, h4⟩
      rw [hstep]

theorem outerFold_syn (nw : Area → List Nat) (srcs : Area → List BrainPart)
    (ts : List Area) (C : Connectome) (s : BrainPart) (d : Area) (i j : Nat) :
    ((ts.foldl
        (fun Cd d1 => (srcs d1).foldl (fun Cs x => plasticityStep Cs d1 (nw d1) x) Cd)
        C)).syn s d i j
      = C.syn s d i j * (1 + updateBeta s d)
          ^ ((ts.map (fun d1 =>
              if d = d1 ∧ i ∈ sourceFiring C s ∧ j ∈ nw d1 then
                (srcs d1).count s
              else 0)).sum) := by
  induction ts generalizing C with
  | nil => simp
  | cons d1 tl ih =>
    simp only [List.foldl_cons, List.map_cons, List.sum_cons]
    rw [ih]
    have hw : (List.foldl (fun Cs x => plasticityStep Cs d1 (nw d1) x) C (srcs d1)).winners
        = C.winners := innerFold_winners d1 (nw d1) (srcs d1) C
    have hsf : sourceFiring
        (List.foldl (fun Cs x => plasticityStep Cs d1 (nw d1) x) C (srcs d1)) s
        = sourceFiring C s := sourceFiring_congr hw s
    rw [hsf, innerFold_syn, mul_assoc, ← pow_add, Nat.add_comm]

theorem project_syn_pow (sel : Selector) (conns : EdgeMap) (C : Connectome)
    (s : BrainPart) (d : Area) (i j : Nat) :
    (project sel conns C).syn s d i j
      = C.syn s d i j * (1 + updateBeta s d) ^ touchCount sel conns C s d i j := by
  rw [project_syn]
  unfold updateConnectomes touchCount
  split
  · simp
  · rw [outerFold_syn]

/-- C4: in any round, every entry of every weight matrix is multiplied by
`(1 + beta) ^ m` where `m` is the number of plasticity updates that
touched it, so (given `beta ≥ 0` and a non-negative entry) no entry ever
decreases; and the lazily initialised entries start in `{0, 1}`. -/
theorem weight_evolution (sel : Selector) (conns : EdgeMap) (C : Connectome)
    (s : BrainPart) (d : Area) (i j : Nat)
    (hw : 0 ≤ C.syn s d i j) (hb : 0 ≤ updateBeta s d) :
    C.syn s d i j ≤ (project sel conns C).syn s d i j
      ∧ (project sel conns C).syn s d i j
          = C.syn s d i j * (1 + updateBeta s d) ^ touchCount sel conns C s d i j
      ∧ ∀ (rng : Nat → Nat → Bool) (i1 j1 : Nat),
          initSynapses rng i1 j1 = 0 ∨ initSynapses rng i1 j1 = 1 := by
  have heq := project_syn_pow sel conns C s d i j
  refine ⟨?_, heq, ?_⟩
  · rw [heq]
    have h1 : (1 : ℚ) ≤ (1 + updateBeta s d) ^ touchCount sel conns C s d i j :=
      one_le_pow₀ (by linarith)
    calc C.syn s d i j = C.syn s d i j * 1 := (mul_one _).symm
      _ ≤ C.syn s d i j * (1 + updateBeta s d) ^ touchCount sel conns C s d i j :=
        mul_le_mul_of_nonneg_left h1 hw
  · intro rng i1 j1
    unfold initSynapses
    split
    · exact Or.inr rfl
    · exact Or.inl rfl

theorem weight_evolution_witness :
    (0 ≤ C3st.syn (.area A0) A0 0 1 ∧ 0 ≤ updateBeta (.area A0) A0)
      ∧ C3st.syn (.area A0) A0 0 1 ≤ (project selConst1 connsLoop C3st).syn (.area A0) A0 0 1 := by
  have h1 : 0 ≤ C3st.syn (.area A0) A0 0 1 := by
    simp [C3st]
  have h2 : 0 ≤ updateBeta (.area A0) A0 := by
    simp [updateBeta, A0]
  exact ⟨⟨h1, h2⟩,
    (weight_evolution selConst1 connsLoop C3st (.area A0) A0 0 1 h1 h2).1⟩

/-! ### C3 — order of commit and plasticity within a round -/

/-- C3 (amended): within one round, every destination's input vector and
new winner list are computed from the pre-round winners map, and the
weight matrices produced by the round are those of `update_connectomes`
applied to the *pre-commit* state (so plasticity reads the pre-round
winners of every source area); the new winners are committed after
plasticity, not before. -/
theorem round_order (sel : Selector) (conns : EdgeMap) (C : Connectome) :
    (project sel conns C).syn
        = (updateConnectomes C
            (fun d => projectInto sel C d (sourcesFor conns d))
            (targets conns) (sourcesFor conns)).syn
      ∧ ∀ d ∈ targets conns,
          (project sel conns C).winners d = projectInto sel C d (sourcesFor conns d) := by
  refine ⟨project_syn sel conns C, ?_⟩
  intro d hd
  rw [project_winners, if_pos hd]

theorem round_order_witness :
    A0 ∈ targets connsStim
      ∧ (project selConst0 connsStim C0).winners A0
          = projectInto selConst0 C0 A0 (sourcesFor connsStim A0) :=
  ⟨by decide, (round_order selConst0 connsStim C0).2 A0 (by decide)⟩

/-- C3 (counterexample): in the self-loop round `{A0: [A0]}` from the
state `C3st` (pre-round winners `[0]`, new winners `[1]`), the code
multiplies entry `(0, 1)` — pre-round winner row, new winner column —
yielding `4`, whereas committing the winners before plasticity (as the
claim orders the round) would multiply entry `(1, 1)` and leave `(0, 1)`
at `2`.  The two orders produce different weight matrices, so the claim's
order is not the code's. -/
theorem commit_order_counterexample :
    argpartitionSpec (prevWinnerInputs C3st A0 (sourcesFor connsLoop A0)) A0.n A0.k
        (selConst1 (prevWinnerInputs C3st A0 (sourcesFor connsLoop A0)) A0.n A0.k)
      ∧ (project selConst1 connsLoop C3st).syn (.area A0) A0 0 1 = 4
      ∧ (projectSpecOrder selConst1 connsLoop C3st).syn (.area A0) A0 0 1 = 2
      ∧ (project selConst1 connsLoop C3st).syn (.area A0) A0 0 1
          ≠ (projectSpecOrder selConst1 connsLoop C3st).syn (.area A0) A0 0 1 := by
  have hsrc : sourcesFor connsLoop A0 = [.area A0] := by decide
  have h2 : (project selConst1 connsLoop C3st).syn (.area A0) A0 0 1 = 4 := by
    have htc : touchCount selConst1 connsLoop C3st (.area A0) A0 0 1 = 1 := by
      decide
    rw [project_syn_pow, htc]
    norm_num [C3st, updateBeta, A0]
  have h3 : (projectSpecOrder selConst1 connsLoop C3st).syn (.area A0) A0 0 1 = 2 := by
    decide
  refine ⟨?_, h2, h3, ?_⟩
  · refine ⟨by decide, by decide, by decide, ?_⟩
    intro i hi j hj hj2
    have hi1 : i = 1 := by
      simpa [selConst1] using hi
    have hj0 : j = 0 := by
      have : j < 2 := hj
      interval_cases j
      · rfl
      · exact absurd (by simp [selConst1]) hj2
    rw [hi1, hj0, hsrc, loop_input_zero, loop_input_one]
    norm_num
  · rw [h2, h3]
    norm_num

end AssemblyCalc
